import Mathlib

/-!
Verification of the form-state engine described in the repository's design
document.  The repository ships only the contract (type) layer
(`src/packages/formik/src/types.tsx`); the behavioural core (tree codec,
field registry, validation coordinator, form-state store, submission/reset
controller) is modelled here from the design document, faithfully to its
words, and the stated properties are proved against that model.

Value / error / touched trees are represented with a tagged representation
(mapping | sequence | scalar | absent), exactly as the design document's
notes prescribe for the dynamic shape-polymorphic trees.  Maps and ordered
sequences are unified into a single `node` constructor carrying an
`isArr` tag and a key/value list (sequences are keyed by their decimal
indices, which is how the path operations address them).
-/

namespace Formik

mutual

/-- Modelled from the spec: the tagged tree representation
(mapping | sequence | scalar | absent) used for Value, Error and Touched
trees.  The implementation of the tree codec is not under `src/`; §3 and
§9 of the design document prescribe this representation. -/
inductive GTree (α : Type) where
  | absent : GTree α
  | leaf (a : α) : GTree α
  | node (isArr : Bool) (kvs : KVs α) : GTree α

/-- Key/value children of a `GTree.node`, as an association list. -/
inductive KVs (α : Type) where
  | nil : KVs α
  | cons (k : String) (v : GTree α) (r : KVs α) : KVs α

end

namespace KVs

/-- Look up the subtree stored under key `k` (first occurrence). -/
def lookupKV : KVs α → String → Option (GTree α)
  | .nil, _ => none
  | .cons k0 v0 r, k => if k0 = k then some v0 else lookupKV r k

/-- Replace the subtree under key `k`, or append the binding if absent. -/
def updateKV : KVs α → String → GTree α → KVs α
  | .nil, k, v => .cons k v .nil
  | .cons k0 v0 r, k, v =>
    if k0 = k then .cons k0 v r else .cons k0 v0 (updateKV r k v)

/-- Whether key `k` is bound. -/
def hasKeyK (kvs : KVs α) (k : String) : Bool :=
  (lookupKV kvs k).isSome

end KVs

open KVs

/-- The child of a key/value list under key `s`, `absent` when unbound. -/
def childKV (kvs : KVs α) (s : String) : GTree α :=
  match lookupKV kvs s with
  | some t => t
  | none => .absent

mutual

/-- Structural (boolean) equality test on trees. -/
def teq [DecidableEq α] : GTree α → GTree α → Bool
  | .absent, .absent => true
  | .leaf a, .leaf b => decide (a = b)
  | .node b1 k1, .node b2 k2 => decide (b1 = b2) && keq k1 k2
  | _, _ => false

/-- Structural (boolean) equality test on key/value lists. -/
def keq [DecidableEq α] : KVs α → KVs α → Bool
  | .nil, .nil => true
  | .cons k v r, .cons k2 v2 r2 => decide (k = k2) && teq v v2 && keq r r2
  | _, _ => false

end

mutual

def teq_eq [DecidableEq α] : (t u : GTree α) → (teq t u = true ↔ t = u)
  | .absent, .absent => by simp [teq]
  | .absent, .leaf _ => by simp [teq]
  | .absent, .node _ _ => by simp [teq]
  | .leaf _, .absent => by simp [teq]
  | .leaf a, .leaf b => by simp [teq]
  | .leaf _, .node _ _ => by simp [teq]
  | .node _ _, .absent => by simp [teq]
  | .node _ _, .leaf _ => by simp [teq]
  | .node b1 k1, .node b2 k2 => by
    simp [teq, keq_eq k1 k2, GTree.node.injEq]

def keq_eq [DecidableEq α] : (x y : KVs α) → (keq x y = true ↔ x = y)
  | .nil, .nil => by simp [keq]
  | .nil, .cons _ _ _ => by simp [keq]
  | .cons _ _ _, .nil => by simp [keq]
  | .cons k v r, .cons k2 v2 r2 => by
    simp [keq, teq_eq v v2, keq_eq r r2, KVs.cons.injEq, and_assoc]

end

instance [DecidableEq α] : DecidableEq (GTree α) := fun t u =>
  decidable_of_iff (teq t u = true) (teq_eq t u)

/-- Whether a path token addresses an array index (all decimal digits). -/
def isIntToken (s : String) : Bool :=
  !s.isEmpty && s.all (fun c => c.isDigit)

/-- Modelled from the spec: `getIn(tree, path)` of the tree codec (§4.1),
whose implementation is not under `src/`.  Walks the (already tokenised)
path; any step into a non-container or unbound key yields `absent`. -/
def getIn : GTree α → List String → GTree α
  | t, [] => t
  | .node _ kvs, s :: rest => getIn (childKV kvs s) rest
  | _, _ :: _ => .absent

/-- Modelled from the spec: `setIn(tree, path, value)` of the tree codec
(§4.1), whose implementation is not under `src/`.  Non-mutating structural
update: copies the spine, shares untouched siblings; a step into a
non-container creates a fresh container whose kind (sequence vs mapping) is
chosen by whether the current token is a numeric index. -/
def setIn : GTree α → List String → GTree α → GTree α
  | _, [], v => v
  | .node b kvs, s :: rest, v =>
    .node b (updateKV kvs s (setIn (childKV kvs s) rest v))
  | _, s :: rest, v =>
    .node (isIntToken s) (.cons s (setIn .absent rest v) .nil)

/-- Paths that diverge (share a prefix, then disagree on a token present in
both). -/
def divergeB : List String → List String → Bool
  | a :: p, b :: q => if a = b then divergeB p q else true
  | _, _ => false

/-- Whether the path exists in the tree: every step lands on a bound key of
a container node. -/
def liveT : GTree α → List String → Bool
  | _, [] => true
  | .node _ kvs, s :: rest =>
    match lookupKV kvs s with
    | some c => liveT c rest
    | none => false
  | _, _ :: _ => false

mutual

/-- Modelled from the spec: path-by-path merge of two error trees with the
second (more specific) tree overriding the first wherever it produces a
value (§4.3); the implementation is not under `src/`. -/
def mergeT : GTree α → GTree α → GTree α
  | base, .absent => base
  | _, .leaf a => .leaf a
  | base, .node b kvs =>
    match base with
    | .node _ kvs0 => .node b (mergeKVs kvs0 kvs)
    | _ => .node b kvs

/-- Merge the children of the override tree into the children of the base
tree, key by key. -/
def mergeKVs : KVs α → KVs α → KVs α
  | b, .nil => b
  | b, .cons k v r => mergeKVs (updateKV b k (mergeT (childKV b k) v)) r

end

mutual

/-- Well-formed tree: no node binds the same key twice (trees decoded from
host-language objects always satisfy this). -/
def wfT : GTree α → Bool
  | .absent => true
  | .leaf _ => true
  | .node _ kvs => wfK kvs

/-- Well-formed key/value list: keys pairwise distinct, subtrees well
formed. -/
def wfK : KVs α → Bool
  | .nil => true
  | .cons k v r => !hasKeyK r k && wfT v && wfK r

end

mutual

/-- Structural emptiness: the tree contains no non-absent leaf. -/
def emptyT : GTree α → Bool
  | .absent => true
  | .leaf _ => false
  | .node _ kvs => emptyK kvs

/-- Structural emptiness of a key/value list. -/
def emptyK : KVs α → Bool
  | .nil => true
  | .cons _ v r => emptyT v && emptyK r

end

/-- One token of the path syntax is flushed when a separator is reached. -/
def flushTok (acc : List Char) : List String :=
  if acc.isEmpty then [] else [String.mk acc]

/-- Tokenizer over the characters of a path string. -/
def tokenize : List Char → List Char → List String
  | [], acc => flushTok acc
  | c :: cs, acc =>
    if c = '.' || c = '[' || c = ']' then flushTok acc ++ tokenize cs []
    else tokenize cs (acc ++ [c])

/-- Modelled from the spec: the path syntax of the tree codec (§4.1,
dotted keys and numeric bracket indices); the implementation is not under
`src/`.  Turns a field name into the token list the codec walks. -/
def toPath (s : String) : List String :=
  tokenize s.toList []

/-- Outcome of invoking a field-level validator: a normal completion
yielding an optional error message, or an abnormal failure (the validator
threw / rejected). -/
inductive VResult where
  | ok (e : Option String)
  | fail

/-- The field-level validator contract of `types.tsx` (`FieldValidator`):
given the value at the field's path it yields an error message or nothing;
it may also fail abnormally. -/
def FieldValidator := GTree String → VResult

/-- Modelled from the spec: a Field Registry entry (§3), `{name, optional
validator, mountCount}`; the registry implementation is not under
`src/`. -/
structure FieldEntry where
  name : String
  validator : Option FieldValidator
  mountCount : Nat

/-- The Field Registry: a list of entries with pairwise-distinct names. -/
abbrev Registry := List FieldEntry

/-- Modelled from the spec: `registerField` (§4.2) increments the mount
count for the name, creating the entry on first mount, and stores /
overwrites the validator if one is provided. -/
def registerField : Registry → String → Option FieldValidator → Registry
  | [], nm, v => [⟨nm, v, 1⟩]
  | e :: rest, nm, v =>
    if e.name = nm then
      { name := e.name,
        validator := match v with | some f => some f | none => e.validator,
        mountCount := e.mountCount + 1 } :: rest
    else e :: registerField rest nm v

/-- Modelled from the spec: `unregisterField` (§4.2) decrements the mount
count and deletes the entry only when the count reaches zero. -/
def unregisterField : Registry → String → Registry
  | [], _ => []
  | e :: rest, nm =>
    if e.name = nm then
      if e.mountCount ≤ 1 then rest
      else { e with mountCount := e.mountCount - 1 } :: rest
    else e :: unregisterField rest nm

/-- The registry entry for a name, if present. -/
def findEntry : Registry → String → Option FieldEntry
  | [], _ => none
  | e :: rest, nm => if e.name = nm then some e else findEntry rest nm

/-- Mount count registered for a name (0 when absent). -/
def countOf (reg : Registry) (nm : String) : Nat :=
  match findEntry reg nm with
  | some e => e.mountCount
  | none => 0

/-- Whether the registry holds an entry for the name. -/
def hasEntry (reg : Registry) (nm : String) : Bool :=
  (findEntry reg nm).isSome

/-- The validator currently registered for a name, if any. -/
def findValidator (reg : Registry) (nm : String) : Option FieldValidator :=
  match findEntry reg nm with
  | some e => e.validator
  | none => none

/-- Registry invariant: entry names are pairwise distinct (the registry is
a mapping from field name to entry). -/
def nodupNames : Registry → Bool
  | [] => true
  | e :: rest => !hasEntry rest e.name && nodupNames rest

/-- Modelled from the spec: `runFieldLevelValidations` (§4.2); the
implementation is not under `src/`.  Invokes every registered validator on
the value at its path and collects the produced messages into an error
tree keyed by the field name; a validator yielding no error, or failing
abnormally, contributes nothing at its path. -/
def fieldLevelErrors : Registry → GTree String → GTree String
  | [], _ => .absent
  | e :: rest, values =>
    match e.validator with
    | some f =>
      match f (getIn values (toPath e.name)) with
      | .ok (some msg) =>
        setIn (fieldLevelErrors rest values) (toPath e.name) (.leaf msg)
      | .ok none => fieldLevelErrors rest values
      | .fail => fieldLevelErrors rest values
    | none => fieldLevelErrors rest values

/-- Modelled from the spec: the engine configuration (§6): optional
whole-form validate function, optional schema, policy flags and the
initial-validity override (`isInitialValid` in `types.tsx`).  Validation
sources are modelled by the error tree they produce for given values. -/
structure Config where
  validate : Option (GTree String → GTree String)
  schema : Option (GTree String → GTree String)
  isInitialValid : Option Bool
  validateOnChange : Bool
  validateOnBlur : Bool
  validateOnMount : Bool

/-- Error tree produced by the whole-form validate function (absent when
no function is configured). -/
def fnOut (cfg : Config) (values : GTree String) : GTree String :=
  match cfg.validate with
  | some f => f values
  | none => .absent

/-- Error tree produced by the schema (absent when no schema is
configured). -/
def schemaOut (cfg : Config) (values : GTree String) : GTree String :=
  match cfg.schema with
  | some f => f values
  | none => .absent

/-- Modelled from the spec: `validateForm` of the Validation Coordinator
(§4.3); the implementation is not under `src/`.  Merges the three sources
path by path: function output over schema output, field-level output over
both (most specific wins). -/
def validateForm (cfg : Config) (reg : Registry) (values : GTree String) :
    GTree String :=
  mergeT (mergeT (schemaOut cfg values) (fnOut cfg values))
    (fieldLevelErrors reg values)

/-- Project the leaf message at a path, if the tree holds one there. -/
def asLeaf : GTree String → Option String
  | .leaf e => some e
  | _ => none

/-- Schema contribution for one field: full-schema output projected at the
field's path. -/
def schemaFieldErr (cfg : Config) (values : GTree String) (nm : String) :
    Option String :=
  asLeaf (getIn (schemaOut cfg values) (toPath nm))

/-- Result of the single field-level validator for a name (nothing when no
validator is registered or it fails abnormally). -/
def fieldRes (reg : Registry) (values : GTree String) (nm : String) :
    Option String :=
  match findValidator reg nm with
  | some f =>
    match f (getIn values (toPath nm)) with
    | .ok r => r
    | .fail => none
  | none => none

/-- Modelled from the spec: `validateField(name)` (§4.3); the
implementation is not under `src/`.  Runs only the schema (projected at
the path) and the single field-level validator, the field-level result
overriding the schema result. -/
def validateField (cfg : Config) (reg : Registry) (values : GTree String)
    (nm : String) : Option String :=
  match fieldRes reg values nm with
  | some e => some e
  | none => schemaFieldErr cfg values nm

/-- Modelled from the spec: the Form State Store snapshot (§3) plus the
pieces owned by the same controller: the captured `initial*` values, the
Field Registry, and the Validation Coordinator's sequence numbers (the
whole-form counter and the per-field counters of the staleness-discard
protocol).  The store implementation is not under `src/`. -/
structure Form where
  values : GTree String
  errors : GTree String
  touched : GTree Bool
  status : Option String
  isSubmitting : Bool
  isValidating : Bool
  submitCount : Nat
  topSeq : Nat
  fieldSeqs : List (String × Nat)
  initialValues : GTree String
  initialErrors : GTree String
  initialTouched : GTree Bool
  initialStatus : Option String
  registry : Registry

/-- Modelled from the spec: construction of the store (§3): the initial
values are captured once and the live snapshot starts equal to them. -/
def initForm (vals : GTree String) : Form :=
  { values := vals
    errors := .absent
    touched := .absent
    status := none
    isSubmitting := false
    isValidating := false
    submitCount := 0
    topSeq := 0
    fieldSeqs := []
    initialValues := vals
    initialErrors := .absent
    initialTouched := .absent
    initialStatus := none
    registry := [] }

/-- Computed property `dirty` (§3): structural inequality between the live
values and the captured initial values. -/
def dirty (s : Form) : Bool :=
  !(teq s.values s.initialValues)

/-- Modelled from the spec: computed property `isValid` (§3): the error
tree is structurally empty, or no submit has occurred and the explicit
initial-validity override says valid. -/
def isValid (cfg : Config) (s : Form) : Bool :=
  emptyT s.errors || (s.submitCount == 0 && cfg.isInitialValid == some true)

/-- The sequence number of the latest validation run started for a field
(0 before the first run). -/
def fieldSeqOf (s : Form) (nm : String) : Nat :=
  match s.fieldSeqs.lookup nm with
  | some n => n
  | none => 0

/-- Bump the per-field sequence number for a name. -/
def bumpSeq : List (String × Nat) → String → List (String × Nat)
  | [], nm => [(nm, 1)]
  | kv :: rest, nm =>
    if kv.1 = nm then (kv.1, kv.2 + 1) :: rest else kv :: bumpSeq rest nm

/-- Per-field sequence number read off a sequence list (0 when absent);
`fieldSeqOf` is this read applied to the form's list. -/
def seqOfList (l : List (String × Nat)) (nm : String) : Nat :=
  match l.lookup nm with
  | some n => n
  | none => 0

/-- Set the Touched-Tree leaf to true at the path of every registered
field. -/
def touchAll : Registry → GTree Bool → GTree Bool
  | [], t => t
  | e :: rest, t => touchAll rest (setIn t (toPath e.name) (.leaf true))

/-- Modelled from the spec: `submitForm()` of the Submission/Reset
Controller (§4.5); the implementation is not under `src/`.  Increments
`submitCount`, sets `isSubmitting`, touches every registered field, runs
`validateForm` (a fresh coordinator run); if the resulting error tree is
non-empty it resets `isSubmitting` and returns without invoking the
submit callback, otherwise the callback is invoked.  The second component
reports whether the caller-supplied submit callback was invoked. -/
def submitForm (cfg : Config) (s : Form) : Form × Bool :=
  let s1 : Form :=
    { s with
      submitCount := s.submitCount + 1
      isSubmitting := true
      topSeq := s.topSeq + 1
      touched := touchAll s.registry s.touched }
  let errs := validateForm cfg s.registry s1.values
  if emptyT errs then
    ({ s1 with errors := errs, isSubmitting := false }, true)
  else
    ({ s1 with errors := errs, isSubmitting := false }, false)

/-- Modelled from the spec: the store mutations and coordinator events
(§4.3–§4.5): the primitive setters, field registration, the submit and
reset lifecycles, and the start / completion of (whole-form and per-field)
validation runs.  The implementations are not under `src/`. -/
inductive Op where
  | setValues (v : GTree String)
  | setFieldValue (p : List String) (v : GTree String)
  | setErrors (t : GTree String)
  | setFieldError (p : List String) (msg : String)
  | setTouched (t : GTree Bool)
  | setFieldTouched (p : List String) (b : Bool)
  | setStatus (st : Option String)
  | setSubmitting (b : Bool)
  | startValidation
  | completeValidation (id : Nat) (res : GTree String)
  | startFieldValidation (nm : String)
  | completeFieldValidation (nm : String) (id : Nat) (res : Option String)
  | registerFieldOp (nm : String) (v : Option FieldValidator)
  | unregisterFieldOp (nm : String)
  | submit
  | reset

/-- Modelled from the spec: one state transition of the engine.  A
validation start tags the new run with the next sequence number; a
completion applies its result only when no newer run has been started
since (staleness discard, §4.3); `resetForm` restores the snapshot from
the `initial*` captures, resets `submitCount` and supersedes in-flight
runs (§4.5). -/
def applyOp (cfg : Config) : Op → Form → Form
  | .setValues v, s => { s with values := v }
  | .setFieldValue p v, s => { s with values := setIn s.values p v }
  | .setErrors t, s => { s with errors := t }
  | .setFieldError p msg, s => { s with errors := setIn s.errors p (.leaf msg) }
  | .setTouched t, s => { s with touched := t }
  | .setFieldTouched p b, s => { s with touched := setIn s.touched p (.leaf b) }
  | .setStatus st, s => { s with status := st }
  | .setSubmitting b, s => { s with isSubmitting := b }
  | .startValidation, s =>
    { s with topSeq := s.topSeq + 1, isValidating := true }
  | .completeValidation id res, s =>
    if id = s.topSeq then { s with errors := res, isValidating := false }
    else s
  | .startFieldValidation nm, s =>
    { s with fieldSeqs := bumpSeq s.fieldSeqs nm }
  | .completeFieldValidation nm id res, s =>
    if id = fieldSeqOf s nm then
      { s with
        errors :=
          setIn s.errors (toPath nm)
            (match res with | some m => .leaf m | none => .absent) }
    else s
  | .registerFieldOp nm v, s =>
    { s with registry := registerField s.registry nm v }
  | .unregisterFieldOp nm, s =>
    { s with registry := unregisterField s.registry nm }
  | .submit, s => (submitForm cfg s).1
  | .reset, s =>
    { s with
      values := s.initialValues
      errors := s.initialErrors
      touched := s.initialTouched
      status := s.initialStatus
      isSubmitting := false
      isValidating := false
      submitCount := 0
      topSeq := s.topSeq + 1
      fieldSeqs := s.fieldSeqs.map (fun kv => (kv.1, kv.2 + 1)) }

/-- Run a list of operations left to right. -/
def applyOps (cfg : Config) (l : List Op) (s : Form) : Form :=
  l.foldl (fun s0 op => applyOp cfg op s0) s

/-- The parsed paths of all registered fields. -/
def regPaths (reg : Registry) : List (List String) :=
  reg.map (fun e => toPath e.name)

/-- Boolean path-prefix test on token lists. -/
def isPre : List String → List String → Bool
  | [], _ => true
  | _ :: _, [] => false
  | a :: p, b :: q => if a = b then isPre p q else false

/-- A set of paths is conflict-free when no two distinct paths lie on one
spine (none is a prefix of another): each path then addresses its own
leaf. -/
def prefixFreeB (ps : List (List String)) : Bool :=
  ps.all (fun p1 => ps.all (fun p2 =>
    decide (p1 = p2) || (!(isPre p1 p2) && !(isPre p2 p1))))

/-- A plain configuration: no validation sources, no override. -/
def cfg0 : Config :=
  ⟨none, none, none, true, true, false⟩

/-- Sample nested value tree used by concrete witnesses. -/
def sampleTree : GTree String :=
  .node false
    (.cons "a"
      (.node false (.cons "b" (.leaf "1") (.cons "c" (.leaf "2") .nil)))
      (.cons "d" (.leaf "3") .nil))

/-- Sample flat value tree used by concrete witnesses. -/
def sampleVals : GTree String :=
  .node false (.cons "a" (.leaf "1") .nil)

/-- A field-level validator that fails abnormally (throws). -/
def failValidator : FieldValidator := fun _ => .fail

/-- A field-level validator that always reports an error message. -/
def okValidator : FieldValidator := fun _ => .ok (some "field-error")

/-- A form with one whole-form validation run and one validation run for
field `a` already started. -/
def sampleFormC1 : Form :=
  { initForm .absent with topSeq := 1, fieldSeqs := [("a", 1)] }

/-- A form with two registered fields. -/
def formC2 : Form :=
  { initForm (.leaf "v") with
    registry := [⟨"a", none, 1⟩, ⟨"b", none, 1⟩] }

/-- A configuration whose initial-validity override says valid. -/
def cfgOverride : Config :=
  ⟨none, none, some true, true, true, false⟩

/-- A form carrying a non-empty error tree before any submit. -/
def formC5 : Form :=
  { initForm .absent with
    errors := .node false (.cons "name" (.leaf "required") .nil) }

/-- Whole-form validate function returning the empty object. -/
def cfgValOk : Config :=
  ⟨some (fun _ => .node false .nil), none, none, true, true, false⟩

/-- Whole-form validate function returning `{name: "required"}`. -/
def cfgValErr : Config :=
  ⟨some (fun _ => .node false (.cons "name" (.leaf "required") .nil)),
    none, none, true, true, false⟩

/-- The example values `{name: "x"}`. -/
def valuesEx : GTree String :=
  .node false (.cons "name" (.leaf "x") .nil)

/-- Start a whole-form validation run on a fresh form and apply its
result. -/
def formAfterValidation (cfg : Config) : Form :=
  applyOp cfg (.completeValidation 1 (validateForm cfg [] valuesEx))
    (applyOp cfg .startValidation (initForm valuesEx))

/-- Configuration with both a whole-form function and a schema producing
errors at path `a`. -/
def cfgC4 : Config :=
  ⟨some (fun _ => .node false (.cons "a" (.leaf "fn-error") .nil)),
    some (fun _ => .node false (.cons "a" (.leaf "schema-error") .nil)),
    none, true, true, false⟩

/-- Registry with one always-failing-with-a-message validator on `a`. -/
def regC4 : Registry := [⟨"a", some okValidator, 1⟩]

theorem teq_refl [DecidableEq α] (t : GTree α) : teq t t = true :=
  (teq_eq t t).mpr rfl

theorem setIn_nil (t v : GTree α) : setIn t [] v = v := by
  cases t <;> rfl

theorem getIn_nil (t : GTree α) : getIn t [] = t := by
  cases t <;> rfl

theorem lookupKV_updateKV_same : (kvs : KVs α) → (k : String) → (v : GTree α) →
    lookupKV (updateKV kvs k v) k = some v
  | .nil, k, v => by simp [updateKV, lookupKV]
  | .cons k0 v0 r, k, v => by
    by_cases h : k0 = k <;>
      simp [updateKV, lookupKV, h, lookupKV_updateKV_same r k v]

theorem lookupKV_updateKV_ne : (kvs : KVs α) → {k k' : String} → (v : GTree α) →
    k' ≠ k → lookupKV (updateKV kvs k v) k' = lookupKV kvs k'
  | .nil, k, k', v, h => by simp [updateKV, lookupKV, Ne.symm h]
  | .cons k0 v0 r, k, k', v, h => by
    by_cases h0 : k0 = k
    · subst h0
      simp [updateKV, lookupKV, Ne.symm h]
    · simp [updateKV, lookupKV, h0, lookupKV_updateKV_ne r v h]

theorem childKV_updateKV_same (kvs : KVs α) (k : String) (v : GTree α) :
    childKV (updateKV kvs k v) k = v := by
  simp [childKV, lookupKV_updateKV_same]

theorem childKV_updateKV_ne (kvs : KVs α) {k k' : String} (v : GTree α)
    (h : k' ≠ k) : childKV (updateKV kvs k v) k' = childKV kvs k' := by
  simp [childKV, lookupKV_updateKV_ne kvs v h]

theorem updateKV_self : (kvs : KVs α) → {k : String} → {v : GTree α} →
    lookupKV kvs k = some v → updateKV kvs k v = kvs
  | .nil, k, v, h => by simp [lookupKV] at h
  | .cons k0 v0 r, k, v, h => by
    by_cases h0 : k0 = k
    · subst h0
      simp [lookupKV] at h
      simp [updateKV, h]
    · simp [lookupKV, h0] at h
      simp [updateKV, h0, updateKV_self r h]

theorem updateKV_updateKV : (kvs : KVs α) → (k : String) → (v w : GTree α) →
    updateKV (updateKV kvs k v) k w = updateKV kvs k w
  | .nil, k, v, w => by simp [updateKV]
  | .cons k0 v0 r, k, v, w => by
    by_cases h : k0 = k <;> simp [updateKV, h, updateKV_updateKV r k v w]

theorem getIn_absent (q : List String) : getIn (.absent : GTree α) q = .absent := by
  cases q <;> rfl

/-- The codec round-trip: reading back the path just written yields the
written value. -/
theorem getIn_setIn_same (p : List String) (t v : GTree α) :
    getIn (setIn t p v) p = v := by
  induction p generalizing t with
  | nil => simp [setIn_nil, getIn_nil]
  | cons s rest ih =>
    cases t with
    | node b kvs => simp [setIn, getIn, childKV_updateKV_same, ih]
    | absent => simp [setIn, getIn, childKV, lookupKV, ih]
    | leaf a => simp [setIn, getIn, childKV, lookupKV, ih]

theorem divergeB_comm (p q : List String) : divergeB p q = divergeB q p := by
  induction p generalizing q with
  | nil => cases q <;> rfl
  | cons a p ih =>
    cases q with
    | nil => rfl
    | cons b q =>
      by_cases h : a = b
      · subst h; simp [divergeB, ih]
      · simp [divergeB, h, Ne.symm h]

/-- Writing along `p` does not disturb reads along any diverging path. -/
theorem getIn_setIn_diverge (p q : List String) (t v : GTree α)
    (h : divergeB p q = true) : getIn (setIn t p v) q = getIn t q := by
  induction p generalizing q t with
  | nil => simp [divergeB] at h
  | cons s p ih =>
    cases q with
    | nil => simp [divergeB] at h
    | cons u q =>
      by_cases hsu : s = u
      · subst hsu
        simp only [divergeB, if_pos rfl] at h
        simp only [eq_self_iff_true, if_true] at h
        cases t with
        | node b kvs =>
          simp [setIn, getIn, childKV_updateKV_same, ih q _ h]
        | absent =>
          simp [setIn, getIn, childKV, lookupKV, ih q _ h, getIn_absent]
        | leaf a =>
          simp [setIn, getIn, childKV, lookupKV, ih q _ h, getIn_absent]
      · cases t with
        | node b kvs =>
          simp only [setIn, getIn]
          rw [childKV_updateKV_ne kvs _ (Ne.symm hsu)]
        | absent =>
          simp [setIn, getIn, childKV, lookupKV, hsu, getIn_absent]
        | leaf a =>
          simp [setIn, getIn, childKV, lookupKV, hsu, getIn_absent]

/-- Writing twice along the same path keeps only the second write. -/
theorem setIn_setIn (p : List String) (t v w : GTree α) :
    setIn (setIn t p v) p w = setIn t p w := by
  induction p generalizing t with
  | nil => simp [setIn_nil]
  | cons s rest ih =>
    cases t with
    | node b kvs =>
      simp [setIn, childKV_updateKV_same, updateKV_updateKV, ih]
    | absent =>
      simp [setIn, childKV, lookupKV, updateKV, ih]
    | leaf a =>
      simp [setIn, childKV, lookupKV, updateKV, ih]

/-- Writing back the value already present at a live path is a no-op. -/
theorem setIn_getIn_self {t : GTree α} {p : List String}
    (h : liveT t p = true) : setIn t p (getIn t p) = t := by
  induction p generalizing t with
  | nil => simp [setIn_nil, getIn_nil]
  | cons s rest ih =>
    cases t with
    | node b kvs =>
      simp only [liveT] at h
      cases hc : lookupKV kvs s with
      | none => rw [hc] at h; simp at h
      | some c =>
        rw [hc] at h
        simp only [setIn, getIn, childKV, hc]
        rw [ih h, updateKV_self kvs hc]
    | absent => simp [liveT] at h
    | leaf a => simp [liveT] at h

theorem mergeT_absent (t : GTree α) : mergeT t .absent = t := by
  cases t <;> rfl

theorem mergeT_leaf (t : GTree α) (a : α) : mergeT t (.leaf a) = .leaf a := by
  cases t <;> rfl

theorem childKV_of_hasKeyK_false {kvs : KVs α} {k : String}
    (h : hasKeyK kvs k = false) : childKV kvs k = .absent := by
  unfold hasKeyK at h
  unfold childKV
  cases hl : lookupKV kvs k with
  | none => rfl
  | some c => rw [hl] at h; simp at h

theorem childKV_mergeKVs : (o b : KVs α) → (s : String) → wfK o = true →
    childKV (mergeKVs b o) s = mergeT (childKV b s) (childKV o s)
  | .nil, b, s, _ => by
    simp [mergeKVs, childKV, lookupKV, mergeT_absent]
  | .cons k v r, b, s, h => by
    simp only [wfK, Bool.and_eq_true, Bool.not_eq_true'] at h
    obtain ⟨⟨hk, hv⟩, hr⟩ := h
    simp only [mergeKVs]
    rw [childKV_mergeKVs r _ s hr]
    by_cases hks : s = k
    · subst hks
      rw [childKV_updateKV_same, childKV_of_hasKeyK_false hk, mergeT_absent]
      simp [childKV, lookupKV]
    · rw [childKV_updateKV_ne b _ hks]
      simp [childKV, lookupKV, Ne.symm hks]

theorem wfT_childKV : (kvs : KVs α) → (s : String) → wfK kvs = true →
    wfT (childKV kvs s) = true
  | .nil, s, _ => by simp [childKV, lookupKV, wfT]
  | .cons k v r, s, h => by
    simp only [wfK, Bool.and_eq_true, Bool.not_eq_true'] at h
    obtain ⟨⟨hk, hv⟩, hr⟩ := h
    by_cases hks : k = s
    · subst hks
      simp [childKV, lookupKV, hv]
    · simp only [childKV, lookupKV, if_neg hks]
      exact wfT_childKV r s hr

/-- Wherever the override tree holds a leaf, the merged tree holds that
same leaf: the more specific source wins. -/
theorem getIn_mergeT_leaf : (p : List String) → (base over : GTree α) →
    (e : α) → wfT over = true → getIn over p = .leaf e →
    getIn (mergeT base over) p = .leaf e
  | [], base, over, e, _, hg => by
    rw [getIn_nil] at hg
    subst hg
    rw [mergeT_leaf, getIn_nil]
  | s :: rest, base, over, e, hw, hg => by
    cases over with
    | absent => rw [getIn_absent] at hg; exact absurd hg (by simp)
    | leaf a => simp [getIn] at hg
    | node b kvs =>
      simp only [getIn] at hg
      simp only [wfT] at hw
      cases base with
      | node b0 kvs0 =>
        show getIn (.node b (mergeKVs kvs0 kvs)) (s :: rest) = .leaf e
        simp only [getIn]
        rw [childKV_mergeKVs kvs kvs0 s hw]
        exact getIn_mergeT_leaf rest _ _ e (wfT_childKV kvs s hw) hg
      | absent =>
        show getIn (.node b kvs) (s :: rest) = .leaf e
        simp [getIn, hg]
      | leaf a =>
        show getIn (.node b kvs) (s :: rest) = .leaf e
        simp [getIn, hg]

theorem wfK_updateKV : (kvs : KVs α) → (k : String) → (x : GTree α) →
    wfK kvs = true → wfT x = true → wfK (updateKV kvs k x) = true
  | .nil, k, x, _, hx => by
    simp [updateKV, wfK, hasKeyK, lookupKV, hx]
  | .cons k0 v0 r, k, x, h, hx => by
    simp only [wfK, Bool.and_eq_true, Bool.not_eq_true'] at h
    obtain ⟨⟨hk, hv⟩, hr⟩ := h
    by_cases h0 : k0 = k
    · subst h0
      simp [updateKV, wfK, hk, hx, hr]
    · simp only [updateKV, if_neg h0, wfK, Bool.and_eq_true, Bool.not_eq_true']
      refine ⟨⟨?_, hv⟩, wfK_updateKV r k x hr hx⟩
      unfold hasKeyK
      rw [lookupKV_updateKV_ne r x h0]
      unfold hasKeyK at hk
      exact hk

theorem applyOps_nil (cfg : Config) (s : Form) : applyOps cfg [] s = s := rfl

theorem applyOps_cons (cfg : Config) (op : Op) (L : List Op) (s : Form) :
    applyOps cfg (op :: L) s = applyOps cfg L (applyOp cfg op s) := rfl

/-- No operation ever decreases the coordinator's sequence counter. -/
theorem applyOp_topSeq_mono (cfg : Config) (op : Op) (s : Form) :
    s.topSeq ≤ (applyOp cfg op s).topSeq := by
  cases op <;>
    simp only [applyOp, submitForm] <;>
    (try split) <;>
    simp [Nat.le_succ]

theorem applyOps_topSeq_mono (cfg : Config) (L : List Op) (s : Form) :
    s.topSeq ≤ (applyOps cfg L s).topSeq := by
  induction L generalizing s with
  | nil => exact Nat.le_refl _
  | cons op L ih =>
    rw [applyOps_cons]
    exact Nat.le_trans (applyOp_topSeq_mono cfg op s) (ih _)

/-- A completion whose run is not the latest started one is discarded
without touching the store. -/
theorem completeValidation_stale (cfg : Config) {id : Nat} (r : GTree String)
    (s : Form) (h : id ≠ s.topSeq) :
    applyOp cfg (.completeValidation id r) s = s := by
  simp [applyOp, h]

/-- A per-field completion whose run is not the latest started one for
that field is discarded without touching the store. -/
theorem completeFieldValidation_stale (cfg : Config) {nm : String}
    {id : Nat} (res : Option String) (s : Form)
    (h : id ≠ fieldSeqOf s nm) :
    applyOp cfg (.completeFieldValidation nm id res) s = s := by
  simp [applyOp, h]

/-- Bumping one field's sequence number never decreases any field's
sequence number. -/
theorem seqOfList_bumpSeq_mono : (l : List (String × Nat)) →
    (nm0 nm : String) → seqOfList l nm ≤ seqOfList (bumpSeq l nm0) nm
  | [], nm0, nm => by
    simp only [bumpSeq, seqOfList, List.lookup]
    cases hb : (nm == nm0) with
    | true => simp
    | false => simp
  | (k, n) :: rest, nm0, nm => by
    by_cases h : k = nm0
    · simp only [bumpSeq, if_pos h]
      simp only [seqOfList, List.lookup]
      cases hb : (nm == k) with
      | true => simp [Nat.le_succ]
      | false => simp
    · simp only [bumpSeq, if_neg h]
      simp only [seqOfList, List.lookup]
      cases hb : (nm == k) with
      | true => simp
      | false =>
        simp only []
        exact seqOfList_bumpSeq_mono rest nm0 nm

/-- Superseding every in-flight per-field run (reset) never decreases any
field's sequence number. -/
theorem seqOfList_map_succ_mono : (l : List (String × Nat)) → (nm : String) →
    seqOfList l nm ≤ seqOfList (l.map (fun kv => (kv.1, kv.2 + 1))) nm
  | [], nm => by simp [seqOfList, List.lookup]
  | (k, n) :: rest, nm => by
    simp only [List.map, seqOfList, List.lookup]
    cases hb : (nm == k) with
    | true => simp [Nat.le_succ]
    | false =>
      simp only []
      exact seqOfList_map_succ_mono rest nm

/-- No operation ever decreases a field's sequence number. -/
theorem applyOp_fieldSeq_mono (cfg : Config) (op : Op) (s : Form)
    (nm : String) : fieldSeqOf s nm ≤ fieldSeqOf (applyOp cfg op s) nm := by
  cases op <;>
    first
    | exact seqOfList_bumpSeq_mono s.fieldSeqs _ nm
    | exact seqOfList_map_succ_mono s.fieldSeqs nm
    | (simp only [applyOp, submitForm]; (try split) <;> exact Nat.le_refl _)

theorem applyOps_fieldSeq_mono (cfg : Config) (L : List Op) (s : Form)
    (nm : String) : fieldSeqOf s nm ≤ fieldSeqOf (applyOps cfg L s) nm := by
  induction L generalizing s with
  | nil => exact Nat.le_refl _
  | cons op L ih =>
    rw [applyOps_cons]
    exact Nat.le_trans (applyOp_fieldSeq_mono cfg op s nm) (ih _)

/-- A submit attempt increments `submitCount` by exactly one. -/
theorem submit_submitCount (cfg : Config) (s : Form) :
    (applyOp cfg Op.submit s).submitCount = s.submitCount + 1 := by
  simp only [applyOp, submitForm]
  split <;> rfl

/-- Every operation other than reset leaves `submitCount` unchanged or
increments it. -/
theorem applyOp_submitCount_mono (cfg : Config) (op : Op) (s : Form)
    (h : op ≠ Op.reset) :
    s.submitCount ≤ (applyOp cfg op s).submitCount := by
  cases op <;>
    first
    | exact absurd rfl h
    | (simp only [applyOp, submitForm]; (try split) <;> simp [Nat.le_succ])

theorem applyOps_replicate_submit (cfg : Config) :
    ∀ (N : Nat) (s : Form),
      (applyOps cfg (List.replicate N Op.submit) s).submitCount =
        s.submitCount + N := by
  intro N
  induction N with
  | zero => intro s; simp [applyOps_nil]
  | succ n ih =>
    intro s
    rw [List.replicate_succ, applyOps_cons, ih, submit_submitCount]
    omega

/-- `setIn` preserves well-formedness. -/
theorem wfT_setIn : (p : List String) → (t v : GTree α) →
    wfT t = true → wfT v = true → wfT (setIn t p v) = true
  | [], t, v, _, hv => by rw [setIn_nil]; exact hv
  | s :: rest, t, v, ht, hv => by
    cases t with
    | node b kvs =>
      simp only [wfT] at ht
      simp only [setIn, wfT]
      exact wfK_updateKV kvs s _ ht
        (wfT_setIn rest (childKV kvs s) v (wfT_childKV kvs s ht) hv)
    | absent =>
      simp only [setIn, wfT, wfK, hasKeyK, lookupKV]
      simp [wfT_setIn rest .absent v rfl hv]
    | leaf a =>
      simp only [setIn, wfT, wfK, hasKeyK, lookupKV]
      simp [wfT_setIn rest .absent v rfl hv]

theorem findEntry_none_of_hasEntry_false {reg : Registry} {nm : String}
    (h : hasEntry reg nm = false) : findEntry reg nm = none := by
  unfold hasEntry at h
  cases hf : findEntry reg nm with
  | none => rfl
  | some e => rw [hf] at h; simp at h

theorem countOf_of_hasEntry_false {reg : Registry} {nm : String}
    (h : hasEntry reg nm = false) : countOf reg nm = 0 := by
  unfold countOf
  rw [findEntry_none_of_hasEntry_false h]

/-- Registering a mount increments the mount count (creating the entry at
count one on first mount). -/
theorem countOf_registerField : (reg : Registry) → (nm : String) →
    (v : Option FieldValidator) →
    countOf (registerField reg nm v) nm = countOf reg nm + 1
  | [], nm, v => by simp [registerField, countOf, findEntry]
  | e :: rest, nm, v => by
    by_cases h : e.name = nm
    · simp [registerField, h, countOf, findEntry]
    · simp only [registerField, if_neg h, countOf, findEntry]
      exact countOf_registerField rest nm v

/-- Unregistering a mount decrements the mount count. -/
theorem countOf_unregisterField : (reg : Registry) → (nm : String) →
    nodupNames reg = true →
    countOf (unregisterField reg nm) nm = countOf reg nm - 1
  | [], nm, _ => by simp [unregisterField, countOf, findEntry]
  | e :: rest, nm, h => by
    simp only [nodupNames, Bool.and_eq_true, Bool.not_eq_true'] at h
    obtain ⟨he, hr⟩ := h
    by_cases hn : e.name = nm
    · subst hn
      by_cases hc : e.mountCount ≤ 1
      · have h0f : findEntry rest e.name = none :=
          findEntry_none_of_hasEntry_false he
        simp [unregisterField, hc, countOf, findEntry, h0f]
      · simp [unregisterField, hc, countOf, findEntry]
    · simp only [unregisterField, if_neg hn]
      show countOf (e :: unregisterField rest nm) nm = countOf (e :: rest) nm - 1
      simp only [countOf, findEntry, if_neg hn]
      exact countOf_unregisterField rest nm hr

/-- The entry survives an unregister exactly when at least two mounts were
registered. -/
theorem hasEntry_unregisterField : (reg : Registry) → (nm : String) →
    nodupNames reg = true →
    hasEntry (unregisterField reg nm) nm = decide (2 ≤ countOf reg nm)
  | [], nm, _ => by simp [unregisterField, hasEntry, findEntry, countOf]
  | e :: rest, nm, h => by
    simp only [nodupNames, Bool.and_eq_true, Bool.not_eq_true'] at h
    obtain ⟨he, hr⟩ := h
    by_cases hn : e.name = nm
    · subst hn
      by_cases hc : e.mountCount ≤ 1
      · have h0f : findEntry rest e.name = none :=
          findEntry_none_of_hasEntry_false he
        simp [unregisterField, hc, hasEntry, countOf, findEntry, h0f]
        omega
      · simp [unregisterField, hc, hasEntry, countOf, findEntry]
        omega
    · simp only [unregisterField, if_neg hn]
      show hasEntry (e :: unregisterField rest nm) nm =
        decide (2 ≤ countOf (e :: rest) nm)
      simp only [hasEntry, countOf, findEntry, if_neg hn]
      exact hasEntry_unregisterField rest nm hr

/-- Every tree produced by the field-level validation pass is well
formed. -/
theorem wfT_fieldLevelErrors : (reg : Registry) → (values : GTree String) →
    wfT (fieldLevelErrors reg values) = true
  | [], _ => rfl
  | e :: rest, values => by
    cases hv : e.validator with
    | none =>
      simp only [fieldLevelErrors, hv]
      exact wfT_fieldLevelErrors rest values
    | some f =>
      cases hres : f (getIn values (toPath e.name)) with
      | fail =>
        simp only [fieldLevelErrors, hv, hres]
        exact wfT_fieldLevelErrors rest values
      | ok o =>
        cases o with
        | none =>
          simp only [fieldLevelErrors, hv, hres]
          exact wfT_fieldLevelErrors rest values
        | some m =>
          simp only [fieldLevelErrors, hv, hres]
          exact wfT_setIn _ _ _ (wfT_fieldLevelErrors rest values) rfl

/-- Two paths neither of which is a prefix of the other diverge. -/
theorem divergeB_of_not_pre : (p q : List String) → isPre p q = false →
    isPre q p = false → divergeB p q = true
  | [], q, h1, _ => by simp [isPre] at h1
  | a :: p, [], _, h2 => by simp [isPre] at h2
  | a :: p, b :: q, h1, h2 => by
    by_cases hab : a = b
    · subst hab
      simp only [isPre, if_pos rfl, eq_self_iff_true, if_true] at h1 h2
      simp only [divergeB, eq_self_iff_true, if_true]
      exact divergeB_of_not_pre p q h1 h2
    · simp [divergeB, hab]

/-- Any two members of a conflict-free path set are equal or diverge. -/
theorem prefixFreeB_spec {ps : List (List String)} (h : prefixFreeB ps = true)
    {p1 p2 : List String} (h1 : p1 ∈ ps) (h2 : p2 ∈ ps) :
    p1 = p2 ∨ divergeB p1 p2 = true := by
  unfold prefixFreeB at h
  rw [List.all_eq_true] at h
  have ha := h p1 h1
  rw [List.all_eq_true] at ha
  have hb := ha p2 h2
  rw [Bool.or_eq_true] at hb
  cases hb with
  | inl hb => exact Or.inl (of_decide_eq_true hb)
  | inr hb =>
    rw [Bool.and_eq_true, Bool.not_eq_true', Bool.not_eq_true'] at hb
    exact Or.inr (divergeB_of_not_pre p1 p2 hb.1 hb.2)

/-- Touching the remaining registered paths preserves an already-touched
leaf when the remaining paths equal it or diverge from it. -/
theorem getIn_touchAll_preserved : (reg : Registry) → (t : GTree Bool) →
    (pe : List String) → getIn t pe = .leaf true →
    (∀ pp, pp ∈ regPaths reg → pp = pe ∨ divergeB pp pe = true) →
    getIn (touchAll reg t) pe = .leaf true
  | [], t, pe, hg, _ => hg
  | e :: rest, t, pe, hg, hall => by
    simp only [touchAll]
    apply getIn_touchAll_preserved rest _ pe ?_ ?_
    · rcases hall (toPath e.name) (by simp [regPaths]) with heq | hdiv
      · rw [heq]
        exact getIn_setIn_same pe t (.leaf true)
      · rw [getIn_setIn_diverge (toPath e.name) pe t (.leaf true) hdiv]
        exact hg
    · intro pp hpp
      exact hall pp (by simp [regPaths] at hpp ⊢; exact Or.inr hpp)

/-- After `touchAll`, the Touched-Tree leaf at every registered path is
true, provided the registered paths are conflict-free. -/
theorem getIn_touchAll_mem : (reg : Registry) → (t : GTree Bool) →
    (nm : String) → hasEntry reg nm = true →
    (∀ p1 p2, p1 ∈ regPaths reg → p2 ∈ regPaths reg →
      p1 = p2 ∨ divergeB p1 p2 = true) →
    getIn (touchAll reg t) (toPath nm) = .leaf true
  | [], t, nm, hmem, _ => by simp [hasEntry, findEntry] at hmem
  | e :: rest, t, nm, hmem, hpf => by
    by_cases hn : hasEntry rest nm = true
    · simp only [touchAll]
      exact getIn_touchAll_mem rest _ nm hn
        (fun p1 p2 h1 h2 =>
          hpf p1 p2 (by simp [regPaths] at h1 ⊢; exact Or.inr h1)
            (by simp [regPaths] at h2 ⊢; exact Or.inr h2))
    · have hen : e.name = nm := by
        by_cases hh : e.name = nm
        · exact hh
        · unfold hasEntry findEntry at hmem
          rw [if_neg hh] at hmem
          exact absurd hmem hn
      subst hen
      simp only [touchAll]
      apply getIn_touchAll_preserved rest _ _
        (getIn_setIn_same (toPath e.name) t (.leaf true)) ?_
      intro pp hpp
      exact hpf pp (toPath e.name)
        (by simp [regPaths] at hpp ⊢; exact Or.inr hpp)
        (by simp [regPaths])

/-- C3: for every tree `T`, every path `p` and every value `v`,
`getIn (setIn T p v) p = v`; and `setIn` leaves every subtree outside the
spine of `p` unchanged: a read along any path diverging from `p` sees
exactly what it saw in `T` (the purely structural rendering of "copies
only the spine, shares untouched siblings, never mutates the input"). -/
theorem claim_C3 :
    (∀ (T v : GTree String) (p : List String), getIn (setIn T p v) p = v) ∧
    (∀ (T v : GTree String) (p q : List String), divergeB p q = true →
      getIn (setIn T p v) q = getIn T q) :=
  ⟨fun T v p => getIn_setIn_same p T v,
   fun T v p q h => getIn_setIn_diverge p q T v h⟩

theorem claim_C3_witness :
    divergeB ["a", "b"] ["a", "c"] = true ∧
    getIn (setIn sampleTree ["a", "b"] (.leaf "9")) ["a", "b"] = .leaf "9" ∧
    getIn (setIn sampleTree ["a", "b"] (.leaf "9")) ["a", "c"] =
      getIn sampleTree ["a", "c"] :=
  ⟨by decide, claim_C3.1 sampleTree (.leaf "9") ["a", "b"],
   claim_C3.2 sampleTree (.leaf "9") ["a", "b"] ["a", "c"] (by decide)⟩

/-- C1: staleness discard, for whole-form runs and for runs over a single
field alike.  A whole-form (resp. per-field) completion changes nothing
unless its run is the latest started whole-form run (resp. the latest
started run for that field); neither sequence counter ever decreases under
any operation; hence once a newer run `b > a` has been started over the
form, or over the same field (in particular once `b`'s result has been
applied), run `a`'s late completion—arriving after any further sequence of
operations—is discarded and leaves the store exactly as it was. -/
theorem claim_C1 (cfg : Config) (s : Form) (L : List Op) (a : Nat)
    (r : GTree String) (nm : String) (af : Nat) (resf : Option String)
    (ha : a < s.topSeq) (haf : af < fieldSeqOf s nm) :
    (∀ (s0 : Form) (id : Nat) (r0 : GTree String), id ≠ s0.topSeq →
      applyOp cfg (.completeValidation id r0) s0 = s0) ∧
    (∀ (s0 : Form) (op : Op), s0.topSeq ≤ (applyOp cfg op s0).topSeq) ∧
    applyOp cfg (.completeValidation a r) (applyOps cfg L s) =
      applyOps cfg L s ∧
    (∀ (s0 : Form) (nm0 : String) (id : Nat) (r0 : Option String),
      id ≠ fieldSeqOf s0 nm0 →
      applyOp cfg (.completeFieldValidation nm0 id r0) s0 = s0) ∧
    (∀ (s0 : Form) (op : Op) (nm0 : String),
      fieldSeqOf s0 nm0 ≤ fieldSeqOf (applyOp cfg op s0) nm0) ∧
    applyOp cfg (.completeFieldValidation nm af resf) (applyOps cfg L s) =
      applyOps cfg L s := by
  refine ⟨fun s0 id r0 h => completeValidation_stale cfg r0 s0 h,
    fun s0 op => applyOp_topSeq_mono cfg op s0, ?_,
    fun s0 nm0 id r0 h => completeFieldValidation_stale cfg r0 s0 h,
    fun s0 op nm0 => applyOp_fieldSeq_mono cfg op s0 nm0, ?_⟩
  · have hle := applyOps_topSeq_mono cfg L s
    exact completeValidation_stale cfg r _
      (Nat.ne_of_lt (Nat.lt_of_lt_of_le ha hle))
  · have hle := applyOps_fieldSeq_mono cfg L s nm
    exact completeFieldValidation_stale cfg resf _
      (Nat.ne_of_lt (Nat.lt_of_lt_of_le haf hle))

theorem claim_C1_witness :
    0 < sampleFormC1.topSeq ∧
    0 < fieldSeqOf sampleFormC1 "a" ∧
    applyOp cfg0 (.completeValidation 0 (.leaf "stale"))
        (applyOps cfg0 [.startValidation] sampleFormC1) =
      applyOps cfg0 [.startValidation] sampleFormC1 ∧
    applyOp cfg0 (.completeFieldValidation "a" 0 (some "stale"))
        (applyOps cfg0 [.startFieldValidation "a"] sampleFormC1) =
      applyOps cfg0 [.startFieldValidation "a"] sampleFormC1 :=
  ⟨by decide, by decide,
   (claim_C1 cfg0 sampleFormC1 [.startValidation] 0 (.leaf "stale") "a" 0
     (some "stale") (by decide) (by decide)).2.2.1,
   (claim_C1 cfg0 sampleFormC1 [.startFieldValidation "a"] 0 (.leaf "stale")
     "a" 0 (some "stale") (by decide) (by decide)).2.2.2.2.2⟩

/-- C7: `submitCount` increments by exactly one at the start of each
submit attempt (successful or blocked); no operation other than reset ever
decreases it; and after `N` submit attempts from a fresh form it equals
`N`. -/
theorem claim_C7 (cfg : Config) (s : Form) (N : Nat) (vals : GTree String)
    (op : Op) (h : op ≠ Op.reset) :
    s.submitCount ≤ (applyOp cfg op s).submitCount ∧
    (applyOp cfg Op.submit s).submitCount = s.submitCount + 1 ∧
    (applyOps cfg (List.replicate N Op.submit) (initForm vals)).submitCount
      = N := by
  refine ⟨applyOp_submitCount_mono cfg op s h, submit_submitCount cfg s, ?_⟩
  rw [applyOps_replicate_submit cfg N (initForm vals)]
  simp [initForm]

theorem claim_C7_witness :
    Op.setSubmitting true ≠ Op.reset ∧
    (applyOp cfg0 Op.submit (initForm sampleVals)).submitCount = 0 + 1 ∧
    (applyOps cfg0 (List.replicate 3 Op.submit) (initForm sampleVals)).submitCount = 3 :=
  ⟨fun hh => Op.noConfusion hh,
   (claim_C7 cfg0 (initForm sampleVals) 3 sampleVals (Op.setSubmitting true)
     (fun hh => Op.noConfusion hh)).2.1,
   (claim_C7 cfg0 (initForm sampleVals) 3 sampleVals (Op.setSubmitting true)
     (fun hh => Op.noConfusion hh)).2.2⟩

/-- C6: `dirty` is structural inequality of the live values against the
captured initial values: false right after construction, false after a
reset, true after a `setFieldValue` that changes a (live) leaf away from
its initial value, and false again once the leaf is set back to the
initial value. -/
theorem claim_C6 (cfg : Config) (vals : GTree String) (p : List String)
    (v : GTree String) (hlive : liveT vals p = true)
    (hne : v ≠ getIn vals p) :
    dirty (initForm vals) = false ∧
    (∀ s : Form, dirty (applyOp cfg .reset s) = false) ∧
    dirty (applyOp cfg (.setFieldValue p v) (initForm vals)) = true ∧
    dirty (applyOp cfg (.setFieldValue p (getIn vals p))
      (applyOp cfg (.setFieldValue p v) (initForm vals))) = false := by
  refine ⟨?_, ?_, ?_, ?_⟩
  · simp [dirty, initForm, teq_refl]
  · intro s
    simp [dirty, applyOp, teq_refl]
  · have h3 : teq (setIn vals p v) vals = false := by
      cases hq : teq (setIn vals p v) vals with
      | false => rfl
      | true =>
        have heq := (teq_eq _ _).mp hq
        have hg := getIn_setIn_same p vals v
        rw [heq] at hg
        exact absurd hg.symm hne
    simp [dirty, applyOp, initForm, h3]
  · have h4 : setIn (setIn vals p v) p (getIn vals p) = vals := by
      rw [setIn_setIn, setIn_getIn_self hlive]
    simp [dirty, applyOp, initForm, h4, teq_refl]

theorem claim_C6_witness :
    liveT sampleVals ["a"] = true ∧
    (GTree.leaf "2" : GTree String) ≠ getIn sampleVals ["a"] ∧
    dirty (applyOp cfg0 (.setFieldValue ["a"] (.leaf "2"))
      (initForm sampleVals)) = true ∧
    dirty (applyOp cfg0 (.setFieldValue ["a"] (getIn sampleVals ["a"]))
      (applyOp cfg0 (.setFieldValue ["a"] (.leaf "2"))
        (initForm sampleVals))) = false :=
  ⟨by decide, by decide,
   (claim_C6 cfg0 sampleVals ["a"] (.leaf "2") (by decide) (by decide)).2.2.1,
   (claim_C6 cfg0 sampleVals ["a"] (.leaf "2") (by decide) (by decide)).2.2.2⟩

/-- C9: a field-level validator that fails abnormally is swallowed at the
Field Registry boundary: its entry contributes nothing to the field-level
error tree, so the whole validation pass produces exactly the tree it
would produce without that validator — the failure never reaches the
form's error state nor the caller (all operations remain total). -/
theorem claim_C9 (cfg : Config) (e : FieldEntry) (rest : Registry)
    (values : GTree String) (f : FieldValidator)
    (hf : e.validator = some f)
    (hfail : f (getIn values (toPath e.name)) = VResult.fail) :
    fieldLevelErrors (e :: rest) values = fieldLevelErrors rest values ∧
    validateForm cfg (e :: rest) values = validateForm cfg rest values := by
  have h1 : fieldLevelErrors (e :: rest) values =
      fieldLevelErrors rest values := by
    simp only [fieldLevelErrors, hf, hfail]
  refine ⟨h1, ?_⟩
  unfold validateForm
  rw [h1]

theorem claim_C9_witness :
    (FieldEntry.mk "a" (some failValidator) 1).validator = some failValidator ∧
    failValidator (getIn sampleVals (toPath "a")) = VResult.fail ∧
    validateForm cfg0 [⟨"a", some failValidator, 1⟩] sampleVals =
      validateForm cfg0 [] sampleVals :=
  ⟨rfl, rfl,
   (claim_C9 cfg0 ⟨"a", some failValidator, 1⟩ [] sampleVals failValidator
     rfl rfl).2⟩

/-- C10: `registerField` increments the mount count of the path (creating
the entry at count one on first mount) and `unregisterField` decrements
it, deleting the entry only when the count reaches zero; consequently two
mounts followed by one unmount leave the stored validator active in the
field-level validation pass, while unmounting both removes the entry so a
subsequent pass omits that path entirely. -/
theorem claim_C10 (reg : Registry) (nm : String)
    (v : Option FieldValidator) (f : FieldValidator)
    (values : GTree String) (e : String)
    (hnd : nodupNames reg = true)
    (hv : f (getIn values (toPath nm)) = VResult.ok (some e)) :
    countOf (registerField reg nm v) nm = countOf reg nm + 1 ∧
    countOf (unregisterField reg nm) nm = countOf reg nm - 1 ∧
    hasEntry (unregisterField reg nm) nm = decide (2 ≤ countOf reg nm) ∧
    (findValidator
      (unregisterField (registerField (registerField [] nm (some f)) nm none) nm)
      nm = some f ∧
     getIn
      (fieldLevelErrors
        (unregisterField (registerField (registerField [] nm (some f)) nm none) nm)
        values)
      (toPath nm) = .leaf e ∧
     findValidator
      (unregisterField
        (unregisterField (registerField (registerField [] nm (some f)) nm none) nm)
        nm)
      nm = none ∧
     fieldLevelErrors
      (unregisterField
        (unregisterField (registerField (registerField [] nm (some f)) nm none) nm)
        nm)
      values = .absent) := by
  have hr2 : registerField (registerField [] nm (some f)) nm none =
      [⟨nm, some f, 2⟩] := by
    simp [registerField]
  have hr3 : unregisterField (registerField (registerField [] nm (some f)) nm none) nm =
      [⟨nm, some f, 1⟩] := by
    rw [hr2]
    simp [unregisterField]
  have hr4 : unregisterField ([⟨nm, some f, 1⟩] : Registry) nm = [] := by
    simp [unregisterField]
  refine ⟨countOf_registerField reg nm v, countOf_unregisterField reg nm hnd,
    hasEntry_unregisterField reg nm hnd, ?_, ?_, ?_, ?_⟩
  · rw [hr3]
    simp [findValidator, findEntry]
  · rw [hr3]
    simp only [fieldLevelErrors, hv]
    exact getIn_setIn_same (toPath nm) _ (.leaf e)
  · rw [hr3, hr4]
    simp [findValidator, findEntry]
  · rw [hr3, hr4]
    rfl

theorem claim_C10_witness :
    nodupNames [] = true ∧
    okValidator (getIn sampleVals (toPath "a")) =
      VResult.ok (some "field-error") ∧
    countOf (registerField [] "a" none) "a" = countOf [] "a" + 1 ∧
    findValidator
      (unregisterField (registerField (registerField [] "a" (some okValidator)) "a" none) "a")
      "a" = some okValidator :=
  ⟨rfl, rfl,
   (claim_C10 [] "a" none okValidator sampleVals "field-error" rfl rfl).1,
   (claim_C10 [] "a" none okValidator sampleVals "field-error" rfl rfl).2.2.2.1⟩

/-- C4: the merge policy of `validateForm`.  At any path where the
whole-form function produces a value, its output overrides the schema's in
the schema-then-function merge; and the field-level contributions, merged
last, override any path they cover in the final result. -/
theorem claim_C4 (cfg : Config) (reg : Registry) (values : GTree String)
    (p : List String) (e msg : String)
    (hwf : wfT (fnOut cfg values) = true)
    (hfn : getIn (fnOut cfg values) p = .leaf e)
    (hfl : getIn (fieldLevelErrors reg values) p = .leaf msg) :
    getIn (mergeT (schemaOut cfg values) (fnOut cfg values)) p = .leaf e ∧
    getIn (validateForm cfg reg values) p = .leaf msg := by
  refine ⟨getIn_mergeT_leaf p _ _ e hwf hfn, ?_⟩
  unfold validateForm
  exact getIn_mergeT_leaf p _ _ msg (wfT_fieldLevelErrors reg values) hfl

theorem claim_C4_witness :
    wfT (fnOut cfgC4 sampleVals) = true ∧
    getIn (fnOut cfgC4 sampleVals) ["a"] = .leaf "fn-error" ∧
    getIn (fieldLevelErrors regC4 sampleVals) ["a"] = .leaf "field-error" ∧
    getIn (mergeT (schemaOut cfgC4 sampleVals) (fnOut cfgC4 sampleVals))
      ["a"] = .leaf "fn-error" ∧
    getIn (validateForm cfgC4 regC4 sampleVals) ["a"] = .leaf "field-error" :=
  ⟨by decide, by decide, by decide,
   (claim_C4 cfgC4 regC4 sampleVals ["a"] "fn-error" "field-error"
     (by decide) (by decide) (by decide)).1,
   (claim_C4 cfgC4 regC4 sampleVals ["a"] "fn-error" "field-error"
     (by decide) (by decide) (by decide)).2⟩

/-- C8: `validateField(name)` merges the schema projection at the field's
path with the single field-level validator's result, the field-level
result overriding the schema's whenever it produces an error and the
schema projection surviving when it does not; per-field completions obey
the same staleness discard rule: a completion whose run is not the latest
started for that field leaves the store untouched. -/
theorem claim_C8 (cfg : Config) (reg : Registry) (values : GTree String)
    (nm : String) (e : String) (s : Form) (id : Nat) (res : Option String)
    (hid : id ≠ fieldSeqOf s nm) :
    (fieldRes reg values nm = some e →
      validateField cfg reg values nm = some e) ∧
    (fieldRes reg values nm = none →
      validateField cfg reg values nm = schemaFieldErr cfg values nm) ∧
    applyOp cfg (.completeFieldValidation nm id res) s = s := by
  refine ⟨fun h => ?_, fun h => ?_, ?_⟩
  · simp [validateField, h]
  · simp [validateField, h]
  · simp [applyOp, hid]

theorem claim_C8_witness :
    fieldRes regC4 sampleVals "a" = some "field-error" ∧
    (1 : Nat) ≠ fieldSeqOf (initForm sampleVals) "a" ∧
    validateField cfgC4 regC4 sampleVals "a" = some "field-error" ∧
    applyOp cfgC4 (.completeFieldValidation "a" 1 (some "late"))
      (initForm sampleVals) = initForm sampleVals :=
  ⟨by decide, by decide,
   (claim_C8 cfgC4 regC4 sampleVals "a" "field-error" (initForm sampleVals)
     1 (some "late") (by decide)).1 (by decide),
   (claim_C8 cfgC4 regC4 sampleVals "a" "field-error" (initForm sampleVals)
     1 (some "late") (by decide)).2.2⟩

/-- C5 counterexample: `isValid` is not equivalent to structural emptiness
of the error tree.  With the initial-validity override set to valid and no
submit attempt yet, `isValid` is true although the error tree holds the
leaf `name: "required"`. -/
theorem claim_C5_counterexample :
    isValid cfgOverride formC5 = true ∧ emptyT formC5.errors = false := by
  constructor
  · rfl
  · rfl

/-- C5 (amended): `isValid` is true iff the error tree is structurally
empty, unless no submit has occurred and the explicit initial-validity
override says valid (in which case `isValid` is true regardless); in
particular, whenever the override is not engaged the equivalence holds,
and the spec's examples hold: with values `{name: "x"}` and a whole-form
validate returning `{}` the applied validation yields `isValid = true`,
while validate returning `{name: "required"}` yields `isValid = false`
with `errors.name = "required"`. -/
theorem claim_C5 (cfg : Config) (s : Form)
    (h : cfg.isInitialValid = some true → 0 < s.submitCount) :
    (isValid cfg s = true ↔ emptyT s.errors = true) ∧
    isValid cfgValOk (formAfterValidation cfgValOk) = true ∧
    isValid cfgValErr (formAfterValidation cfgValErr) = false ∧
    getIn (formAfterValidation cfgValErr).errors ["name"] = .leaf "required" := by
  refine ⟨?_, rfl, rfl, rfl⟩
  by_cases hio : cfg.isInitialValid = some true
  · have hsc : s.submitCount ≠ 0 := Nat.pos_iff_ne_zero.mp (h hio)
    have hb : (s.submitCount == 0) = false := by
      simp [hsc]
    simp [isValid, hb]
  · have hb : (cfg.isInitialValid == some true) = false := by
      simp [hio]
    simp [isValid, hb]

theorem claim_C5_witness :
    (cfg0.isInitialValid = some true → 0 < (initForm sampleVals).submitCount) ∧
    (isValid cfg0 (initForm sampleVals) = true ↔
      emptyT (initForm sampleVals).errors = true) :=
  ⟨by decide,
   (claim_C5 cfg0 (initForm sampleVals) (by decide)).1⟩

/-- C2: `submitForm` touches every registered field path (setting its
Touched-Tree leaf to true) regardless of the validation outcome, provided
the registered paths are conflict-free; and when `validateForm` yields a
non-empty error tree it sets `isSubmitting` back to false and returns
without invoking the caller-supplied submit callback. -/
theorem claim_C2 (cfg : Config) (s : Form) (nm : String)
    (hpf : prefixFreeB (regPaths s.registry) = true)
    (hmem : hasEntry s.registry nm = true) :
    getIn (submitForm cfg s).1.touched (toPath nm) = .leaf true ∧
    (emptyT (validateForm cfg s.registry s.values) = false →
      (submitForm cfg s).2 = false ∧
      (submitForm cfg s).1.isSubmitting = false) := by
  have htouch : (submitForm cfg s).1.touched = touchAll s.registry s.touched := by
    cases hemp : emptyT (validateForm cfg s.registry s.values) with
    | true => simp [submitForm, hemp]
    | false => simp [submitForm, hemp]
  have hsub : (submitForm cfg s).1.isSubmitting = false := by
    cases hemp : emptyT (validateForm cfg s.registry s.values) with
    | true => simp [submitForm, hemp]
    | false => simp [submitForm, hemp]
  refine ⟨?_, fun hne => ?_⟩
  · rw [htouch]
    exact getIn_touchAll_mem s.registry s.touched nm hmem
      (fun p1 p2 h1 h2 => prefixFreeB_spec hpf h1 h2)
  · exact ⟨by simp [submitForm, hne], hsub⟩

theorem claim_C2_witness :
    prefixFreeB (regPaths formC2.registry) = true ∧
    hasEntry formC2.registry "a" = true ∧
    getIn (submitForm cfg0 formC2).1.touched (toPath "a") = .leaf true :=
  ⟨by decide, by decide,
   (claim_C2 cfg0 formC2 "a" (by decide) (by decide)).1⟩

end Formik
